import Mathlib

/-!
Verification of `examples/transformer/enwik8.py` from the blocksparse
repository.  The script's pure components are embedded as Lean functions:
the coarse block layout and fine sub-block mask of the sparse attention
structure, the data-splitting and batching routines, the mixed-precision
loss-scale controller, the gradient scaling, the optimizer partitioning
and the weight-tied output projection.  Machine floats are modelled as
exact rationals and numpy arrays as lists.
-/

namespace Enwik8

/-! ### Sparse attention structure (C1)

`get_blocksparse_attention_ops` builds a coarse layout over
`n_timesteps // 64` blocks of size 64, and `causal_subblock_mask` the fine
mask inside each block. -/

/-- Block size used by `get_blocksparse_attention_ops`. -/
def blocksize : Nat := 64

/-- Coarse layout entry at block coordinates `(q_idx, k_idx)`:
`np.ones` followed by zeroing every entry with `k_idx > q_idx`. -/
def layout (q_idx k_idx : Nat) : Bool :=
  if k_idx > q_idx then false else true

/-- Fine mask entry of `causal_subblock_mask` at in-block coordinates
`(q, k)` for the block `(query_idx, key_idx)`: the mask starts as
`np.ones(blk_shape)` and, when `query_idx == key_idx`, entries with
`k > q` are zeroed. -/
def causal_subblock_mask (query_idx key_idx q k : Nat) : Bool :=
  if query_idx = key_idx then (if k > q then false else true) else true

/-- Combined coarse-and-fine attention structure: absolute query position
`i` may attend to absolute key position `j` iff the coarse layout admits
the pair of blocks and the fine mask admits the in-block offsets. -/
def permits (i j : Nat) : Bool :=
  layout (i / blocksize) (j / blocksize) &&
    causal_subblock_mask (i / blocksize) (j / blocksize)
      (i % blocksize) (j % blocksize)

/-! ### Mixed-precision loss-scale controller (C3)

The training loop starts from `cur_cost_scale = hps.cost_scale` and
`cost_count = 0` and updates both after every iteration from the returned
`norm_scale`. -/

/-- State of the host-side loss-scaling controller. -/
structure ScaleState where
  scale : ℚ
  count : ℕ
deriving Repr, DecidableEq

/-- One iteration of the controller, from the training loop: if
`norm_scale == 0.0` halve the scale and reset the counter; otherwise if
`cost_count >= hps.cost_count` double the scale and reset the counter;
otherwise increment the counter. -/
def costScaleStep (cost_count_limit : ℕ) (st : ScaleState)
    (normScaleZero : Bool) : ScaleState :=
  if normScaleZero then ⟨st.scale * (1/2), 0⟩
  else if st.count ≥ cost_count_limit then ⟨st.scale * 2, 0⟩
  else ⟨st.scale, st.count + 1⟩

/-- Controller state after a sequence of iterations, each observation
recording whether that iteration returned `norm_scale == 0.0`. -/
def runCostScale (cost_count_limit : ℕ) (init_scale : ℚ)
    (obs : List Bool) : ScaleState :=
  obs.foldl (costScaleStep cost_count_limit) ⟨init_scale, 0⟩

/-! ### Gradient scale (C4)

The script sets
`grad_scale = tf.constant(1.0) / (cost_scale * tf.constant(float(mpi_size)))`. -/

/-- Host-side gradient scale passed to both optimizers. -/
def grad_scale (cost_scale : ℚ) (mpi_size : ℕ) : ℚ :=
  1 / (cost_scale * (mpi_size : ℚ))

/-! ### Data loading (C6)

`enwik8` reads the first `n_train + n_valid + n_test` bytes and splits
them with `np.split(X, [n_train, n_train + n_valid])`. -/

/-- Embedding of `enwik8(path, n_train, n_valid, n_test)`: the file
contents are modelled as a list of bytes; `open(path).read(n)` takes the
first `n` bytes and `np.split(X, [a, b])` returns
`(X[:a], X[a:b], X[b:])`. -/
def enwik8 (file : List ℕ) (n_train n_valid n_test : ℕ) :
    List ℕ × List ℕ × List ℕ :=
  let X := file.take (n_train + n_valid + n_test)
  (X.take n_train,
   (X.take (n_train + n_valid)).drop n_train,
   X.drop (n_train + n_valid))

/-! ### Distributed loss reporting (C8)

In `model`, after the mean over the batch, the loss is replaced by
`allreduce(loss) * tf.constant(1.0 / mpi_size)` iff `mpi_size > 1`. -/

/-- NCCL `allreduce` interpreted as summation across processes. -/
def allreduce (xs : List ℚ) : ℚ := xs.sum

/-- Loss returned by `model`: the per-process losses are `losses`
(one per rank) and `localLoss` is this process's own mean loss.  When
`mpi_size > 1` the code all-reduces and multiplies by `1 / mpi_size`;
otherwise the local loss is returned unchanged. -/
def reportedLoss (mpi_size : ℕ) (losses : List ℚ) (localLoss : ℚ) : ℚ :=
  if mpi_size > 1 then allreduce losses * (1 / (mpi_size : ℚ)) else localLoss

/-! ### Data iteration (C2, C7, C9)

`iter_data` draws a random `offset` in `[0, n_timesteps)` and a random
permutation of `np.arange(offset, X.size - (n_timesteps + 1), n_timesteps)`;
both random draws are taken as parameters of the embedding (`offset`, and
the already-permuted index list `idxs`). -/

/-- Embedding of `np.arange(start, stop, step)` over naturals: the values
`start, start + step, ...` strictly below `stop`. -/
def arange (start stop step : ℕ) : List ℕ :=
  (List.range ((stop - start + step - 1) / step)).map (fun i => start + i * step)

/-- One row of the batch buffer: the slice
`X[start_idx : start_idx + len]`. -/
def sliceRow (X : List ℕ) (s len : ℕ) : List ℕ := (X.drop s).take len

/-- Row of starting indices used by minibatch `m` on rank `mpi_rank`:
`idxs` is truncated to a multiple of `mpi_size * n_batch`, reshaped to
`[-1, mpi_size, n_batch]`, and entry `[m, mpi_rank]` is selected. -/
def startingIndices (idxs : List ℕ) (n_batch mpi_rank mpi_size m : ℕ) :
    List ℕ :=
  ((idxs.take ((idxs.length / (mpi_size * n_batch)) * (mpi_size * n_batch))).drop
      (m * (mpi_size * n_batch) + mpi_rank * n_batch)).take n_batch

/-- Embedding of `iter_data` after the random draws: one yielded pair per
minibatch.  Each batch buffer row is
`X[start_idx : start_idx + n_timesteps + 1]` and the yield is
`(x[:, :-1], x[:, 1:])`. -/
def iter_data (X : List ℕ) (n_timesteps n_batch mpi_rank mpi_size : ℕ)
    (idxs : List ℕ) : List (List (List ℕ) × List (List ℕ)) :=
  (List.range (idxs.length / (mpi_size * n_batch))).map (fun m =>
    ((startingIndices idxs n_batch mpi_rank mpi_size m).map
        (fun s => (sliceRow X s (n_timesteps + 1)).dropLast),
     (startingIndices idxs n_batch mpi_rank mpi_size m).map
        (fun s => (sliceRow X s (n_timesteps + 1)).drop 1)))

/-- Shape of a yielded pair: row count and row lengths of each
component. -/
def batchShape (p : List (List ℕ) × List (List ℕ)) :
    (ℕ × List ℕ) × (ℕ × List ℕ) :=
  ((p.1.length, p.1.map List.length), (p.2.length, p.2.map List.length))

/-! ### Optimizer partitioning (C5)

`model` walks `zip(grads, params)` and appends each pair to `adam_grads`
when `"embed" in param.op.name` and to `fact_grads` otherwise; the
training op groups both optimizers' `apply_gradients` ops. -/

/-- Python substring test `sub in s`, over character lists. -/
def strContains (s sub : List Char) : Bool :=
  (List.range (s.length + 1)).any (fun i => decide ((s.drop i).take sub.length = sub))

/-- Characters of the Python literal `"embed"`. -/
def embedStr : List Char := ['e', 'm', 'b', 'e', 'd']

/-- A `(gradient, parameter)` pair: the gradient is abstract (a tag) and
the parameter is identified by its op name. -/
abbrev GradParam := ℕ × List Char

/-- Partitioning loop of `model`: pairs whose parameter op name contains
`"embed"` are appended to the Adam list, all others to the Adafactor
list.  The first component is `fact_grads`, the second `adam_grads`. -/
def partitionGrads (pairs : List GradParam) : List GradParam × List GradParam :=
  pairs.foldl
    (fun acc p =>
      if strContains p.2 embedStr then (acc.1, acc.2 ++ [p])
      else (acc.1 ++ [p], acc.2))
    ([], [])

/-- Symbolic training ops built by `model`. -/
inductive TrainOp where
  | applyFact (pairs : List GradParam)
  | applyAdam (pairs : List GradParam)
  | group (a b : TrainOp)
deriving DecidableEq

/-- Embedding of
`train_op = tf.group(fact.apply_gradients(fact_grads), adam.apply_gradients(adam_grads))`. -/
def train_op (pairs : List GradParam) : TrainOp :=
  TrainOp.group (TrainOp.applyFact (partitionGrads pairs).1)
    (TrainOp.applyAdam (partitionGrads pairs).2)

/-! ### Weight-tied output projection (C10)

The model embeds inputs with `embedding_lookup(x_embed, xs)` and computes
`logits = tf.matmul(h, x_embed, transpose_b=True)` with the very same
`x_embed`; the `logits` variable scope creates no variable. -/

/-- Inner product of two rows. -/
def dot (a b : List ℚ) : ℚ := (List.zipWith (· * ·) a b).sum

/-- Embedding of `tf.matmul(h, w, transpose_b=True)`: entry `(i, v)` is
the inner product of row `i` of `h` with row `v` of `w`. -/
def matmulTB (h w : List (List ℚ)) : List (List ℚ) :=
  h.map (fun hrow => w.map (fun wrow => dot hrow wrow))

/-- Embedding of `embedding_lookup(x_embed, xs)`: row `t` of the result
is row `xs[t]` of the embedding matrix. -/
def embedding_lookup (x_embed : List (List ℚ)) (xs : List ℕ) : List (List ℚ) :=
  xs.map (fun t => x_embed.getD t [])

/-- Logits of `model`: `tf.matmul(h, x_embed, transpose_b=True)` applied
to the flattened transformer features and the same `x_embed` passed to
`embedding_lookup`. -/
def logits (h x_embed : List (List ℚ)) : List (List ℚ) := matmulTB h x_embed

/-- Variables created by `layernorm(x, scope)`, as scope paths. -/
def layernormVars (scope : List String) : List (List String) :=
  [scope ++ ["gain"], scope ++ ["bias"]]

/-- Variables created by `conv1d(x, scope, nf)`. -/
def conv1dVars (scope : List String) : List (List String) :=
  [scope ++ ["w"], scope ++ ["b"]]

/-- Variables created by `attention(x, scope, ...)`. -/
def attentionVars (scope : List String) : List (List String) :=
  conv1dVars (scope ++ ["q"]) ++ conv1dVars (scope ++ ["k"]) ++
    conv1dVars (scope ++ ["v"]) ++ conv1dVars (scope ++ ["proj"])

/-- Variables created by `mlp(x, scope)`. -/
def mlpVars (scope : List String) : List (List String) :=
  conv1dVars (scope ++ ["hidden"]) ++ conv1dVars (scope ++ ["residual"])

/-- Variables created by `transformer_block(x, scope, ...)`. -/
def transformer_blockVars (scope : List String) : List (List String) :=
  attentionVars (scope ++ ["attention"]) ++ layernormVars (scope ++ ["norm_a"]) ++
    mlpVars (scope ++ ["mlp"]) ++ layernormVars (scope ++ ["norm_m"])

/-- All trainable variables created by `model` (besides the non-trainable
`global_step`): the two embedding tables and the per-layer block
variables; the `logits` scope creates none. -/
def modelVars (n_layer : ℕ) : List (List String) :=
  [["model", "embed", "x"], ["model", "embed", "pos"]] ++
    (List.range n_layer).flatMap
      (fun l => transformer_blockVars ["model", "layer_" ++ toString l])

end Enwik8

namespace Enwik8

/-! ### Helper lemmas -/

/-- Indexing into a `take` below the cut is indexing into the list. -/
theorem getD_take (l : List ℕ) (n i : ℕ) (h : i < n) :
    (l.take n).getD i 0 = l.getD i 0 := by
  simp [List.getD_eq_getElem?_getD, List.getElem?_take, h]

/-- Indexing into a `drop` is shifted indexing into the list. -/
theorem getD_drop (l : List ℕ) (n i : ℕ) :
    (l.drop n).getD i 0 = l.getD (n + i) 0 := by
  simp [List.getD_eq_getElem?_getD, List.getElem?_drop]

/-- `getD` through a `map`, inside the length. -/
theorem getD_map_lt {α β : Type} (f : α → β) (l : List α) (i : ℕ)
    (hi : i < l.length) (d : α) (d' : β) :
    (l.map f).getD i d' = f (l.getD i d) := by
  rw [List.getD_eq_getElem?_getD, List.getElem?_map,
    List.getD_eq_getElem?_getD, List.getElem?_eq_getElem hi]
  simp

/-- `getD` inside the length is a member. -/
theorem getD_mem_of_lt {α : Type} (l : List α) (i : ℕ) (d : α)
    (h : i < l.length) : l.getD i d ∈ l := by
  rw [List.getD_eq_getElem?_getD, List.getElem?_eq_getElem h]
  simp [List.getElem_mem]

/-- Every element of `np.arange(start, stop, step)` with positive `step`
is strictly below `stop`. -/
theorem arange_mem_lt (start stop step s : ℕ) (hstep : 0 < step)
    (hs : s ∈ arange start stop step) : s < stop := by
  unfold arange at hs
  simp only [List.mem_map, List.mem_range] at hs
  obtain ⟨i, hi, rfl⟩ := hs
  set cnt := (stop - start + step - 1) / step with hcnt
  have h1 : cnt * step ≤ stop - start + step - 1 := Nat.div_mul_le_self _ _
  have h2 : (i + 1) * step ≤ cnt * step := Nat.mul_le_mul_right _ hi
  rcases Nat.lt_or_ge start stop with hlt | hge
  · have h3 : (i + 1) * step = i * step + step := by ring
    omega
  · exfalso
    have hz : stop - start = 0 := by omega
    rw [hz] at hcnt
    have : cnt = 0 := by rw [hcnt]; exact Nat.div_eq_of_lt (by omega)
    omega

/-- Truncation and reshaping never leave the original index list. -/
theorem startingIndices_subset (idxs : List ℕ)
    (n_batch mpi_rank mpi_size m s : ℕ)
    (hs : s ∈ startingIndices idxs n_batch mpi_rank mpi_size m) :
    s ∈ idxs := by
  unfold startingIndices at hs
  exact List.mem_of_mem_take (List.mem_of_mem_drop (List.mem_of_mem_take hs))

/-- For a valid minibatch index and rank, the selected row of starting
indices has exactly `n_batch` entries. -/
theorem startingIndices_length (idxs : List ℕ)
    (n_batch mpi_rank mpi_size m : ℕ)
    (hm : m < idxs.length / (mpi_size * n_batch))
    (hrank : mpi_rank < mpi_size) :
    (startingIndices idxs n_batch mpi_rank mpi_size m).length = n_batch := by
  unfold startingIndices
  set spb := mpi_size * n_batch with hspb
  set K := idxs.length / spb with hK
  have h1 : K * spb ≤ idxs.length := Nat.div_mul_le_self _ _
  have h2 : (m + 1) * spb ≤ K * spb := Nat.mul_le_mul_right _ hm
  have h3 : (mpi_rank + 1) * n_batch ≤ spb := by
    rw [hspb]; exact Nat.mul_le_mul_right _ hrank
  have e2 : m * spb + spb ≤ K * spb := by
    have : (m + 1) * spb = m * spb + spb := by ring
    omega
  have e3 : mpi_rank * n_batch + n_batch ≤ spb := by
    have : (mpi_rank + 1) * n_batch = mpi_rank * n_batch + n_batch := by ring
    omega
  simp only [List.length_take, List.length_drop]
  omega

/-- All starting indices taken from a permutation of the `arange` are
small enough for a full slice of `n_timesteps + 1` bytes. -/
theorem start_in_bounds (X : List ℕ) (n_timesteps offset s : ℕ)
    (idxs : List ℕ) (hnT : 0 < n_timesteps)
    (hperm : idxs.Perm (arange offset (X.length - (n_timesteps + 1)) n_timesteps))
    (hs : s ∈ idxs) : s + (n_timesteps + 1) ≤ X.length := by
  have hmem : s ∈ arange offset (X.length - (n_timesteps + 1)) n_timesteps :=
    hperm.mem_iff.mp hs
  have := arange_mem_lt offset (X.length - (n_timesteps + 1)) n_timesteps s hnT hmem
  omega

/-- The number of pairs yielded by `iter_data` is
`idxs.length / (mpi_size * n_batch)`. -/
theorem iter_data_length (X : List ℕ) (n_timesteps n_batch mpi_rank mpi_size : ℕ)
    (idxs : List ℕ) :
    (iter_data X n_timesteps n_batch mpi_rank mpi_size idxs).length
      = idxs.length / (mpi_size * n_batch) := by
  unfold iter_data
  simp

/-- The pair yielded for a valid minibatch index. -/
theorem iter_data_getD (X : List ℕ) (n_timesteps n_batch mpi_rank mpi_size m : ℕ)
    (idxs : List ℕ) (hm : m < idxs.length / (mpi_size * n_batch)) :
    (iter_data X n_timesteps n_batch mpi_rank mpi_size idxs).getD m ([], [])
      = ((startingIndices idxs n_batch mpi_rank mpi_size m).map
            (fun s => (sliceRow X s (n_timesteps + 1)).dropLast),
         (startingIndices idxs n_batch mpi_rank mpi_size m).map
            (fun s => (sliceRow X s (n_timesteps + 1)).drop 1)) := by
  unfold iter_data
  simp [List.getD_eq_getElem?_getD, List.getElem?_range, hm]

/-- Mapping `List.length` over rows of equal length gives a constant
list. -/
theorem map_length_eq_replicate {α : Type} (l : List α) (f : α → List ℕ)
    (c : ℕ) (h : ∀ a ∈ l, (f a).length = c) :
    (l.map f).map List.length = List.replicate l.length c := by
  induction l with
  | nil => rfl
  | cons x xs ih =>
    simp only [List.map_cons, List.length_cons, List.replicate_succ]
    rw [h x (List.mem_cons_self x xs), ih (fun a ha => h a (List.mem_cons_of_mem x ha))]

/-- For valid minibatch, rank and random draws, the yielded pair has
`n_batch` rows of `n_timesteps` entries in each component. -/
theorem minibatch_shape (X : List ℕ)
    (n_timesteps n_batch mpi_rank mpi_size offset m : ℕ) (idxs : List ℕ)
    (hnT : 0 < n_timesteps)
    (hperm : idxs.Perm (arange offset (X.length - (n_timesteps + 1)) n_timesteps))
    (hrank : mpi_rank < mpi_size)
    (hm : m < idxs.length / (mpi_size * n_batch)) :
    batchShape ((iter_data X n_timesteps n_batch mpi_rank mpi_size idxs).getD m ([], []))
      = ((n_batch, List.replicate n_batch n_timesteps),
         (n_batch, List.replicate n_batch n_timesteps)) := by
  rw [iter_data_getD _ _ _ _ _ _ _ hm]
  have hlen := startingIndices_length idxs n_batch mpi_rank mpi_size m hm hrank
  have hrow : ∀ s ∈ startingIndices idxs n_batch mpi_rank mpi_size m,
      (sliceRow X s (n_timesteps + 1)).length = n_timesteps + 1 := by
    intro s hs
    have hsb := start_in_bounds X n_timesteps offset s idxs hnT hperm
      (startingIndices_subset _ _ _ _ _ _ hs)
    unfold sliceRow
    simp only [List.length_take, List.length_drop]
    omega
  unfold batchShape
  simp only [List.length_map]
  rw [map_length_eq_replicate _ _ n_timesteps
        (fun s hs => by simp [List.length_dropLast, hrow s hs]),
      map_length_eq_replicate _ _ n_timesteps
        (fun s hs => by simp [List.length_drop, hrow s hs]),
      hlen]

/-- The partitioning loop is the pair of order-preserving filters. -/
theorem partitionGrads_eq_filter (pairs : List GradParam) :
    partitionGrads pairs
      = (pairs.filter (fun p => !strContains p.2 embedStr),
         pairs.filter (fun p => strContains p.2 embedStr)) := by
  unfold partitionGrads
  suffices h : ∀ fa ad : List GradParam,
      pairs.foldl
        (fun acc p =>
          if strContains p.2 embedStr then (acc.1, acc.2 ++ [p])
          else (acc.1 ++ [p], acc.2))
        (fa, ad)
      = (fa ++ pairs.filter (fun p => !strContains p.2 embedStr),
         ad ++ pairs.filter (fun p => strContains p.2 embedStr)) by
    simpa using h [] []
  induction pairs with
  | nil => intro fa ad; simp
  | cons q rest ih =>
    intro fa ad
    by_cases hc : strContains q.2 embedStr = true
    · simp [hc, ih, List.append_assoc]
    · simp [hc, ih, List.append_assoc]

/-- No string appears in an append when it appears in neither side. -/
theorem logits_notin_append (scope L : List String)
    (hs : "logits" ∉ scope) (hL : "logits" ∉ L) :
    "logits" ∉ scope ++ L := by
  intro hmem
  rcases List.mem_append.mp hmem with h | h
  · exact hs h
  · exact hL h

/-- A layer scope name is never the string `"logits"`. -/
theorem logits_ne_layer (s : String) : "logits" ≠ "layer_" ++ s := by
  intro h
  have hd : ("logits").data = ("layer_").data ++ s.data := by
    have := congrArg String.data h
    simpa [String.data_append] using this
  have e1 : ("layer_").data = ['l', 'a', 'y', 'e', 'r', '_'] := rfl
  have e2 : ("logits").data = ['l', 'o', 'g', 'i', 't', 's'] := rfl
  rw [e1, e2] at hd
  simp only [List.cons_append, List.nil_append] at hd
  injection hd with _ hd2
  injection hd2 with hchar _
  exact absurd hchar (by decide)

/-- No variable created by a transformer block lives in a `logits`
scope. -/
theorem logits_notin_blockVars (scope : List String)
    (hs : "logits" ∉ scope) :
    ∀ name ∈ transformer_blockVars scope, "logits" ∉ name := by
  intro name hname
  simp only [transformer_blockVars, attentionVars, mlpVars, conv1dVars,
    layernormVars, List.append_assoc, List.cons_append, List.nil_append,
    List.mem_append, List.mem_cons, List.not_mem_nil, or_false] at hname
  rcases hname with rfl | rfl | rfl | rfl | rfl | rfl | rfl | rfl | rfl | rfl |
    rfl | rfl | rfl | rfl | rfl | rfl
  all_goals exact logits_notin_append _ _ hs (by decide)

end Enwik8

namespace Enwik8

/-! ### The claims -/

/-- C1: for any `n_timesteps` that is a positive multiple of 64 the
structure built by `get_blocksparse_attention_ops` is exactly causal:
the layout keeps block `(qb, kb)` iff `kb ≤ qb`, the fine mask is all
ones off the diagonal and lower-triangular on the diagonal, and the
combined structure permits attention from absolute query position `i`
to absolute key position `j` iff `j ≤ i`. -/
theorem causal_structure_exact (n_timesteps : Nat)
    (hmul : 64 ∣ n_timesteps) (hpos : 0 < n_timesteps) :
    (∀ qb kb, qb < n_timesteps / 64 → kb < n_timesteps / 64 →
      layout qb kb = decide (kb ≤ qb)) ∧
    (∀ qb kb q k, qb ≠ kb → causal_subblock_mask qb kb q k = true) ∧
    (∀ qb q k, q < 64 → k < 64 →
      causal_subblock_mask qb qb q k = decide (k ≤ q)) ∧
    (∀ i j, i < n_timesteps → j < n_timesteps →
      permits i j = decide (j ≤ i)) := by
  refine ⟨?_, ?_, ?_, ?_⟩
  · intro qb kb _ _
    unfold layout
    by_cases h : kb > qb <;> simp [h] <;> omega
  · intro qb kb q k hne
    unfold causal_subblock_mask
    simp [hne]
  · intro qb q k _ _
    unfold causal_subblock_mask
    by_cases h : k > q <;> simp [h] <;> omega
  · intro i j _ _
    unfold permits layout causal_subblock_mask blocksize
    have hi := Nat.div_add_mod i 64
    have hj := Nat.div_add_mod j 64
    have him : i % 64 < 64 := Nat.mod_lt _ (by norm_num)
    have hjm : j % 64 < 64 := Nat.mod_lt _ (by norm_num)
    by_cases hblk : j / 64 > i / 64
    · simp only [hblk, if_true, Bool.false_and]
      have : i < j := by omega
      simp; omega
    · simp only [hblk, if_false, Bool.true_and]
      by_cases heq : i / 64 = j / 64
      · by_cases hk : j % 64 > i % 64
        · simp only [heq, if_pos rfl, hk, if_true]
          have : i < j := by omega
          simp; omega
        · simp only [heq, if_pos rfl, hk, if_false]
          have : j ≤ i := by omega
          simp; omega
      · simp only [heq, if_neg heq]
        have : j / 64 < i / 64 := by omega
        have : j < i := by
          calc j = 64 * (j / 64) + j % 64 := hj.symm
          _ < 64 * (j / 64 + 1) := by omega
          _ ≤ 64 * (i / 64) := by omega
          _ ≤ i := by omega
        simp; omega

/-- Witness for C1 at `n_timesteps = 64`. -/
theorem causal_structure_exact_witness :
    (64 : Nat) ∣ 64 ∧ 0 < 64 ∧
    (∀ i j, i < 64 → j < 64 → permits i j = decide (j ≤ i)) :=
  ⟨⟨1, rfl⟩, by decide, (causal_structure_exact 64 ⟨1, rfl⟩ (by decide)).2.2.2⟩

/-- C3: the loss-scale controller keeps `cur_cost_scale` equal to
`hps.cost_scale` times an integer power of two, for every sequence of
iterations following the step rule (halve and reset on
`norm_scale == 0`, double and reset once the counter reaches the limit,
otherwise increment the counter). -/
theorem cost_scale_power_of_two (cost_count_limit : ℕ) (init_scale : ℚ)
    (obs : List Bool) :
    ∃ z : ℤ, (runCostScale cost_count_limit init_scale obs).scale
      = init_scale * 2 ^ z := by
  suffices h : ∀ (st : ScaleState), (∃ z : ℤ, st.scale = init_scale * 2 ^ z) →
      ∃ z : ℤ, (obs.foldl (costScaleStep cost_count_limit) st).scale
        = init_scale * 2 ^ z by
    exact h ⟨init_scale, 0⟩ ⟨0, by simp⟩
  induction obs with
  | nil => intro st hst; simpa using hst
  | cons b rest ih =>
    intro st hst
    obtain ⟨z, hz⟩ := hst
    simp only [List.foldl_cons]
    apply ih
    unfold costScaleStep
    by_cases hb : b = true
    · refine ⟨z - 1, ?_⟩
      simp [hb, hz, zpow_sub₀ (two_ne_zero (α := ℚ))]
      ring
    · simp only [Bool.not_eq_true] at hb
      by_cases hc : st.count ≥ cost_count_limit
      · refine ⟨z + 1, ?_⟩
        simp [hb, hc, hz, zpow_add₀ (two_ne_zero (α := ℚ))]
        ring
      · exact ⟨z, by simp [hb, hc, hz]⟩

/-- C4: the gradient scale exactly inverts the applied cost scale and
process count: `grad_scale s m = 1 / (s * m)`, and a gradient scaled by
the cost scale `s`, summed over `m` processes, then multiplied by
`grad_scale`, is restored exactly. -/
theorem grad_scale_inverts (s : ℚ) (m : ℕ) (hs : s ≠ 0) (hm : 1 ≤ m) :
    grad_scale s m = 1 / (s * (m : ℚ)) ∧
    ∀ g : ℚ, (m : ℚ) * (s * g * grad_scale s m) = g := by
  have hmq : (m : ℚ) ≠ 0 := by
    have : m ≠ 0 := by omega
    exact_mod_cast this
  refine ⟨rfl, fun g => ?_⟩
  unfold grad_scale
  field_simp
  ring

/-- Witness for C4 at `s = 2`, `m = 3`, `g = 5`. -/
theorem grad_scale_inverts_witness :
    (3 : ℚ) * ((2 : ℚ) * 5 * grad_scale 2 3) = 5 :=
  (grad_scale_inverts 2 3 (by norm_num) (by norm_num)).2 5

/-- C5: the trainable parameters are partitioned into exactly two
disjoint lists that together cover every parameter: a pair goes to Adam
iff `"embed"` occurs in the parameter's op name, to Adafactor otherwise,
and the training op is the group of both optimizers' apply ops. -/
theorem optimizer_partition (pairs : List GradParam) :
    (∀ p, p ∈ (partitionGrads pairs).2 ↔
      p ∈ pairs ∧ strContains p.2 embedStr = true) ∧
    (∀ p, p ∈ (partitionGrads pairs).1 ↔
      p ∈ pairs ∧ strContains p.2 embedStr = false) ∧
    (∀ p, ¬(p ∈ (partitionGrads pairs).1 ∧ p ∈ (partitionGrads pairs).2)) ∧
    ((partitionGrads pairs).1 ++ (partitionGrads pairs).2).Perm pairs ∧
    train_op pairs = TrainOp.group (TrainOp.applyFact (partitionGrads pairs).1)
        (TrainOp.applyAdam (partitionGrads pairs).2) := by
  refine ⟨?_, ?_, ?_, ?_, rfl⟩
  · intro p
    rw [partitionGrads_eq_filter]
    simp [List.mem_filter]
  · intro p
    rw [partitionGrads_eq_filter]
    simp [List.mem_filter, Bool.not_eq_true']
  · intro p
    rw [partitionGrads_eq_filter]
    simp only [List.mem_filter, Bool.not_eq_true']
    rintro ⟨⟨-, h1⟩, -, h2⟩
    rw [h1] at h2
    exact Bool.false_ne_true h2
  · rw [partitionGrads_eq_filter]
    have := List.filter_append_perm (fun p : GradParam => !strContains p.2 embedStr) pairs
    simpa [Bool.not_not] using this

/-- C6: for a file with at least `n_train + n_valid + n_test` bytes,
`enwik8` returns the consecutive disjoint segments
`[0, n_train)`, `[n_train, n_train + n_valid)` and
`[n_train + n_valid, n_train + n_valid + n_test)` of the file. -/
theorem enwik8_splits (file : List ℕ) (a b c : ℕ)
    (h : a + b + c ≤ file.length) :
    (enwik8 file a b c).1.length = a ∧
    (enwik8 file a b c).2.1.length = b ∧
    (enwik8 file a b c).2.2.length = c ∧
    (∀ i, i < a → (enwik8 file a b c).1.getD i 0 = file.getD i 0) ∧
    (∀ i, i < b → (enwik8 file a b c).2.1.getD i 0 = file.getD (a + i) 0) ∧
    (∀ i, i < c → (enwik8 file a b c).2.2.getD i 0 = file.getD (a + b + i) 0) := by
  unfold enwik8
  simp only
  refine ⟨?_, ?_, ?_, ?_, ?_, ?_⟩
  · simp; omega
  · simp; omega
  · simp; omega
  · intro i hi
    rw [getD_take _ _ _ hi, getD_take _ _ _ (by omega)]
  · intro i hi
    rw [getD_drop, getD_take _ _ _ (by omega), getD_take _ _ _ (by omega)]
  · intro i hi
    rw [getD_drop, getD_take _ _ _ (by omega)]

/-- Witness for C6. -/
theorem enwik8_splits_witness :
    1 + 2 + 1 ≤ ([10, 11, 12, 13, 14] : List ℕ).length ∧
    (enwik8 [10, 11, 12, 13, 14] 1 2 1).2.1.length = 2 :=
  ⟨by decide, (enwik8_splits [10, 11, 12, 13, 14] 1 2 1 (by decide)).2.1⟩

/-- C8: when `mpi_size > 1` the reported loss is the all-reduced loss
times exactly `1 / mpi_size`, i.e. the arithmetic mean of the
per-process losses; when `mpi_size = 1` the local loss is returned
unchanged and no all-reduce is applied. -/
theorem loss_is_process_mean (m : ℕ) (losses : List ℚ) (l : ℚ)
    (hlen : losses.length = m) :
    (1 < m → reportedLoss m losses l = losses.sum / (losses.length : ℚ)) ∧
    (m = 1 → reportedLoss m losses l = l) := by
  constructor
  · intro hm
    unfold reportedLoss allreduce
    rw [if_pos hm, hlen, mul_one_div]
  · intro hm
    unfold reportedLoss
    rw [if_neg (by omega)]

/-- Witness for C8 at `m = 2`, `losses = [1, 3]`. -/
theorem loss_is_process_mean_witness :
    reportedLoss 2 [1, 3] 7 = ([1, 3] : List ℚ).sum / (([1, 3] : List ℚ).length : ℚ) :=
  (loss_is_process_mean 2 [1, 3] 7 rfl).1 (by norm_num)

/-- C2: targets are next-byte prediction: for every yielded pair
`(x, y)`, batch row `i` with starting index `s_i` and timestep
`t < n_timesteps`, `x[i][t] = X[s_i + t]` and `y[i][t] = X[s_i + t + 1]`. -/
theorem iter_data_next_byte (X : List ℕ)
    (n_timesteps n_batch mpi_rank mpi_size offset : ℕ) (idxs : List ℕ)
    (hXsz : n_timesteps + 1 < X.length) (hnT : 0 < n_timesteps)
    (hperm : idxs.Perm (arange offset (X.length - (n_timesteps + 1)) n_timesteps))
    (hrank : mpi_rank < mpi_size) (m i t : ℕ)
    (hm : m < (iter_data X n_timesteps n_batch mpi_rank mpi_size idxs).length)
    (hi : i < n_batch) (ht : t < n_timesteps) :
    (((iter_data X n_timesteps n_batch mpi_rank mpi_size idxs).getD m
          ([], [])).1.getD i []).getD t 0
      = X.getD ((startingIndices idxs n_batch mpi_rank mpi_size m).getD i 0 + t) 0 ∧
    (((iter_data X n_timesteps n_batch mpi_rank mpi_size idxs).getD m
          ([], [])).2.getD i []).getD t 0
      = X.getD ((startingIndices idxs n_batch mpi_rank mpi_size m).getD i 0 + t + 1) 0 := by
  rw [iter_data_length] at hm
  rw [iter_data_getD _ _ _ _ _ _ _ hm]
  have hlen := startingIndices_length idxs n_batch mpi_rank mpi_size m hm hrank
  have hi' : i < (startingIndices idxs n_batch mpi_rank mpi_size m).length := by omega
  have hsmem : (startingIndices idxs n_batch mpi_rank mpi_size m).getD i 0 ∈ idxs :=
    startingIndices_subset _ _ _ _ _ _ (getD_mem_of_lt _ _ _ hi')
  have hsb := start_in_bounds X n_timesteps offset _ idxs hnT hperm hsmem
  set s := (startingIndices idxs n_batch mpi_rank mpi_size m).getD i 0 with hsdef
  have hslen : (sliceRow X s (n_timesteps + 1)).length = n_timesteps + 1 := by
    unfold sliceRow
    simp only [List.length_take, List.length_drop]
    omega
  constructor
  · show ((List.map _ _).getD i []).getD t 0 = _
    rw [getD_map_lt _ _ _ hi' 0, ← hsdef]
    rw [List.dropLast_eq_take, hslen]
    simp only [Nat.add_sub_cancel]
    rw [getD_take _ _ _ ht]
    unfold sliceRow
    rw [getD_take _ _ _ (by omega), getD_drop]
  · show ((List.map _ _).getD i []).getD t 0 = _
    rw [getD_map_lt _ _ _ hi' 0, ← hsdef]
    rw [getD_drop]
    unfold sliceRow
    rw [getD_take _ _ _ (by omega), getD_drop]
    congr 1
    omega

/-- Witness for C2 at `X = [0..8]`, `n_timesteps = 2`, one rank. -/
theorem iter_data_next_byte_witness :
    (((iter_data [0, 1, 2, 3, 4, 5, 6, 7, 8] 2 1 0 1 [4, 0, 2]).getD 0
          ([], [])).1.getD 0 []).getD 0 0
      = List.getD [0, 1, 2, 3, 4, 5, 6, 7, 8]
          ((startingIndices [4, 0, 2] 1 0 1 0).getD 0 0 + 0) 0 :=
  (iter_data_next_byte [0, 1, 2, 3, 4, 5, 6, 7, 8] 2 1 0 1 0 [4, 0, 2]
    (by decide) (by decide) (by decide) (by decide) 0 0 0
    (by decide) (by decide) (by decide)).1

/-- C7: with the same random draws and the same `mpi_size` and
`n_batch`, two runs of `iter_data` on different ranks yield the same
number of minibatches, `idxs.length / (mpi_size * n_batch)`, and every
yielded batch has the same shape in both runs. -/
theorem iter_data_rank_uniform (X : List ℕ)
    (n_timesteps n_batch mpi_size offset r1 r2 : ℕ) (idxs : List ℕ)
    (hnT : 0 < n_timesteps)
    (hperm : idxs.Perm (arange offset (X.length - (n_timesteps + 1)) n_timesteps))
    (hr1 : r1 < mpi_size) (hr2 : r2 < mpi_size) :
    (iter_data X n_timesteps n_batch r1 mpi_size idxs).length
      = idxs.length / (mpi_size * n_batch) ∧
    (iter_data X n_timesteps n_batch r2 mpi_size idxs).length
      = idxs.length / (mpi_size * n_batch) ∧
    ∀ m, batchShape ((iter_data X n_timesteps n_batch r1 mpi_size idxs).getD m ([], []))
        = batchShape ((iter_data X n_timesteps n_batch r2 mpi_size idxs).getD m ([], [])) := by
  refine ⟨iter_data_length _ _ _ _ _ _, iter_data_length _ _ _ _ _ _, ?_⟩
  intro m
  by_cases hm : m < idxs.length / (mpi_size * n_batch)
  · rw [minibatch_shape X n_timesteps n_batch r1 mpi_size offset m idxs hnT hperm hr1 hm,
      minibatch_shape X n_timesteps n_batch r2 mpi_size offset m idxs hnT hperm hr2 hm]
  · rw [List.getD_eq_default, List.getD_eq_default]
    · rw [iter_data_length]; omega
    · rw [iter_data_length]; omega

/-- Witness for C7 with two ranks. -/
theorem iter_data_rank_uniform_witness :
    (iter_data [0, 1, 2, 3, 4, 5, 6, 7, 8] 2 1 0 2 [0, 2, 4]).length
      = ([0, 2, 4] : List ℕ).length / (2 * 1) ∧
    (iter_data [0, 1, 2, 3, 4, 5, 6, 7, 8] 2 1 1 2 [0, 2, 4]).length
      = ([0, 2, 4] : List ℕ).length / (2 * 1) :=
  ⟨(iter_data_rank_uniform [0, 1, 2, 3, 4, 5, 6, 7, 8] 2 1 2 0 0 1 [0, 2, 4]
      (by decide) (by decide) (by decide) (by decide)).1,
   (iter_data_rank_uniform [0, 1, 2, 3, 4, 5, 6, 7, 8] 2 1 2 0 0 1 [0, 2, 4]
      (by decide) (by decide) (by decide) (by decide)).2.1⟩

/-- C9: every slice taken by `iter_data` is fully in bounds
(`start_idx + n_timesteps + 1 ≤ X.size`), yields exactly
`n_timesteps + 1` elements, and every yielded pair has shape
`(n_batch, n_timesteps)` in both components. -/
theorem iter_data_slices_in_bounds (X : List ℕ)
    (n_timesteps n_batch mpi_rank mpi_size offset : ℕ) (idxs : List ℕ)
    (hXsz : n_timesteps + 1 < X.length) (hnT : 0 < n_timesteps)
    (hperm : idxs.Perm (arange offset (X.length - (n_timesteps + 1)) n_timesteps))
    (hrank : mpi_rank < mpi_size) :
    (∀ m i, m < (iter_data X n_timesteps n_batch mpi_rank mpi_size idxs).length →
      i < n_batch →
      (startingIndices idxs n_batch mpi_rank mpi_size m).getD i 0
          + (n_timesteps + 1) ≤ X.length ∧
      (sliceRow X ((startingIndices idxs n_batch mpi_rank mpi_size m).getD i 0)
          (n_timesteps + 1)).length = n_timesteps + 1) ∧
    (∀ p ∈ iter_data X n_timesteps n_batch mpi_rank mpi_size idxs,
      batchShape p = ((n_batch, List.replicate n_batch n_timesteps),
                      (n_batch, List.replicate n_batch n_timesteps))) := by
  constructor
  · intro m i hm hi
    rw [iter_data_length] at hm
    have hlen := startingIndices_length idxs n_batch mpi_rank mpi_size m hm hrank
    have hi' : i < (startingIndices idxs n_batch mpi_rank mpi_size m).length := by omega
    have hsmem : (startingIndices idxs n_batch mpi_rank mpi_size m).getD i 0 ∈ idxs :=
      startingIndices_subset _ _ _ _ _ _ (getD_mem_of_lt _ _ _ hi')
    have hsb := start_in_bounds X n_timesteps offset _ idxs hnT hperm hsmem
    refine ⟨hsb, ?_⟩
    unfold sliceRow
    simp only [List.length_take, List.length_drop]
    omega
  · intro p hp
    simp only [iter_data, List.mem_map, List.mem_range] at hp
    obtain ⟨m, hm, rfl⟩ := hp
    have := minibatch_shape X n_timesteps n_batch mpi_rank mpi_size offset m idxs
      hnT hperm hrank hm
    rwa [iter_data_getD _ _ _ _ _ _ _ hm] at this

/-- Witness for C9. -/
theorem iter_data_slices_in_bounds_witness :
    (startingIndices [4, 0, 2] 1 0 1 0).getD 0 0 + (2 + 1)
        ≤ ([0, 1, 2, 3, 4, 5, 6, 7, 8] : List ℕ).length :=
  ((iter_data_slices_in_bounds [0, 1, 2, 3, 4, 5, 6, 7, 8] 2 1 0 1 0 [4, 0, 2]
    (by decide) (by decide) (by decide) (by decide)).1 0 0
    (by decide) (by decide)).1

/-- C10: the input embedding and the output projection share one
parameter: the logits entry for row `i` and vocab entry `v` is the inner
product of hidden state `i` with the embedding row that
`embedding_lookup` would return for input `v` — the same `x_embed` — and
no variable of the model lives in the `logits` scope, so no separate
output projection matrix is created anywhere. -/
theorem weight_tying (x_embed h : List (List ℚ)) (n_layer i v : ℕ)
    (hi : i < h.length) (hv : v < x_embed.length) :
    ((logits h x_embed).getD i []).getD v 0
        = dot (h.getD i []) ((embedding_lookup x_embed [v]).getD 0 []) ∧
    ∀ name ∈ modelVars n_layer, "logits" ∉ name := by
  constructor
  · unfold logits matmulTB embedding_lookup
    rw [getD_map_lt _ _ _ hi ([] : List ℚ)]
    rw [getD_map_lt _ _ _ hv ([] : List ℚ)]
    simp
  · intro name hname
    unfold modelVars at hname
    rcases List.mem_append.mp hname with hhead | htail
    · simp only [List.mem_cons, List.not_mem_nil, or_false] at hhead
      rcases hhead with rfl | rfl
      · decide
      · decide
    · rw [List.mem_flatMap] at htail
      obtain ⟨l, -, hmem⟩ := htail
      refine logits_notin_blockVars _ ?_ name hmem
      intro hsc
      rcases List.mem_cons.mp hsc with h1 | h1
      · exact absurd h1 (by decide)
      · rcases List.mem_cons.mp h1 with h2 | h2
        · exact logits_ne_layer (toString l) h2
        · exact List.not_mem_nil _ h2

/-- Witness for C10 at a concrete embedding matrix and hidden state. -/
theorem weight_tying_witness :
    ((logits [[1, 2]] [[3, 4], [5, 6]]).getD 0 []).getD 1 0
      = dot (([[1, 2]] : List (List ℚ)).getD 0 [])
          ((embedding_lookup [[3, 4], [5, 6]] [1]).getD 0 []) :=
  (weight_tying [[3, 4], [5, 6]] [[1, 2]] 1 0 1 (by decide) (by decide)).1

end Enwik8
